import Mathlib

/-!
# PixelPick Pro colour picker: colour conversion and bounded history

A shallow embedding of the pure core of `src/popup/popup.js`:

* `hexToRgb` and `rgbToHsl` (the colour conversion utilities), with JavaScript
  numbers taken as exact rationals and `Math.round` as round-half-up;
* `addToHistory` and `clearColorHistory`, acting on the `colorHistory` array
  (the storage write and the re-rendering that follow each mutation do not
  change the array and are left out).
-/

namespace ColorPicker

/-! ## Colour model -/

/-- The object `{ h, s, l }` returned by `rgbToHsl`. -/
structure HSL where
  h : ℤ
  s : ℤ
  l : ℤ
deriving DecidableEq

/-- `Math.round`: the nearest integer, a tie going up. -/
def mathRound (x : ℚ) : ℤ := ⌊x + 1 / 2⌋

/-- `rgbToHsl(r, g, b)` of `popup.js`, lines 269-305. The `switch (max)` tests
`case r`, `case g`, `case b` in that order with strict equality. -/
def rgbToHsl (r0 g0 b0 : ℚ) : HSL :=
  let r := r0 / 255
  let g := g0 / 255
  let b := b0 / 255
  let max := Max.max r (Max.max g b)
  let min := Min.min r (Min.min g b)
  let diff := max - min
  let sum := max + min
  let l := sum / 2
  let s := if diff ≠ 0 then (if l > 1 / 2 then diff / (2 - sum) else diff / sum) else 0
  let h :=
    if diff ≠ 0 then
      (if max = r then (g - b) / diff + (if g < b then 6 else 0)
       else if max = g then (b - r) / diff + 2
       else if max = b then (r - g) / diff + 4
       else 0) / 6
    else 0
  { h := mathRound (h * 360), s := mathRound (s * 100), l := mathRound (l * 100) }

/-- The three colour channels, naming the `case` labels of the `switch`. -/
inductive Channel where
  | red
  | green
  | blue
deriving DecidableEq

/-- The value a `case` label of the `switch (max)` compares `max` with. -/
def Channel.value (c : Channel) (r g b : ℚ) : ℚ :=
  match c with
  | .red => r
  | .green => g
  | .blue => b

/-- The body of the `case` of channel `c` in the `switch (max)`. -/
def hueCase (c : Channel) (r g b diff : ℚ) : ℚ :=
  match c with
  | .red => (g - b) / diff + (if g < b then 6 else 0)
  | .green => (b - r) / diff + 2
  | .blue => (r - g) / diff + 4

/-- Variant of `rgbToHsl` whose `switch (max)` tests the channels in the order
`ord` instead of red, green, blue; everything else is as in `rgbToHsl`. -/
def rgbToHslOrder (ord : List Channel) (r0 g0 b0 : ℚ) : HSL :=
  let r := r0 / 255
  let g := g0 / 255
  let b := b0 / 255
  let max := Max.max r (Max.max g b)
  let min := Min.min r (Min.min g b)
  let diff := max - min
  let sum := max + min
  let l := sum / 2
  let s := if diff ≠ 0 then (if l > 1 / 2 then diff / (2 - sum) else diff / sum) else 0
  let h :=
    if diff ≠ 0 then
      (match ord.find? (fun c => decide (max = c.value r g b)) with
       | some c => hueCase c r g b diff
       | none => 0) / 6
    else 0
  { h := mathRound (h * 360), s := mathRound (s * 100), l := mathRound (l * 100) }

/-! ## Hex strings -/

/-- `String.prototype.slice(start, stop)` for non-negative indices: the
characters at positions `start`, ..., `stop - 1`, both indices clamped to the
length. -/
def slice (s : List Char) (start stop : ℕ) : List Char := (s.take stop).drop start

/-- The value of a radix-16 digit, `none` for any other character: `0`-`9`,
`a`-`f` and `A`-`F`, as `parseInt` reads them. -/
def hexDigitValue (c : Char) : Option ℕ :=
  if 48 ≤ c.toNat ∧ c.toNat ≤ 57 then some (c.toNat - 48)
  else if 97 ≤ c.toNat ∧ c.toNat ≤ 102 then some (c.toNat - 87)
  else if 65 ≤ c.toNat ∧ c.toNat ≤ 70 then some (c.toNat - 55)
  else none

/-- The white space and line terminator characters that `parseInt` skips at the
start of its input. -/
def isStrWhiteSpaceChar (c : Char) : Bool :=
  decide (c.toNat ∈ [0x9, 0xA, 0xB, 0xC, 0xD, 0x20, 0xA0, 0x1680, 0x2000, 0x2001, 0x2002,
    0x2003, 0x2004, 0x2005, 0x2006, 0x2007, 0x2008, 0x2009, 0x200A, 0x2028, 0x2029, 0x202F,
    0x205F, 0x3000, 0xFEFF])

/-- The built-in `parseInt(s, 16)`: skip leading white space, read an optional
sign, skip an optional `0x` or `0X`, then read the longest run of radix-16
digits. `none` stands for `NaN` (no digit read). The integer is exact, as it
is for the two-character slices `hexToRgb` passes. -/
def parseInt16 (s : List Char) : Option ℤ :=
  let s1 := s.dropWhile isStrWhiteSpaceChar
  let sign : ℤ := if s1.head? = some '-' then -1 else 1
  let s2 := if s1.head? = some '+' ∨ s1.head? = some '-' then s1.tail else s1
  let s3 := if s2.take 2 = ['0', 'x'] ∨ s2.take 2 = ['0', 'X'] then s2.drop 2 else s2
  let z := s3.takeWhile (fun c => (hexDigitValue c).isSome)
  if z = [] then none
  else some (sign * ((z.foldl (fun acc c => 16 * acc + (hexDigitValue c).getD 0) 0 : ℕ) : ℤ))

/-- The object `{ r, g, b }` returned by `hexToRgb`; `none` stands for `NaN`. -/
structure RGB where
  r : Option ℤ
  g : Option ℤ
  b : Option ℤ
deriving DecidableEq

/-- `hexToRgb(hex)` of `popup.js`, lines 262-267. No validation is performed.
A string is taken as the list of its characters, which for a string of the
Basic Multilingual Plane (every hex colour is one) is the list of UTF-16 code
units that `slice` indexes. -/
def hexToRgb (hex : String) : RGB :=
  let r := parseInt16 (slice hex.data 1 3)
  let g := parseInt16 (slice hex.data 3 5)
  let b := parseInt16 (slice hex.data 5 7)
  { r := r, g := g, b := b }

/-- `String.prototype.toUpperCase`, as used on hex colours in `displayColor`,
on ASCII strings: `a`-`z` go to `A`-`Z` and every other character is kept. -/
def toUpperCase (s : String) : String := ⟨s.data.map Char.toUpper⟩

/-- A channel written as two zero-padded uppercase hex digits
(`n.toString(16).padStart(2, '0').toUpperCase()`); this follows the wording of
the specification, the source has no such function. -/
def toHex2 (n : ℕ) : List Char :=
  let digits := Nat.toDigits 16 n
  (List.replicate (2 - digits.length) '0' ++ digits).map Char.toUpper

/-- The hex string rebuilt from an RGB triple, `'#'` followed by the three
channels as `toHex2` writes them; this follows the wording of the
specification. `none` when a channel is `NaN`. -/
def rebuildHex (rgb : RGB) : Option String :=
  match rgb.r, rgb.g, rgb.b with
  | some r, some g, some b => some ⟨'#' :: (toHex2 r.toNat ++ toHex2 g.toNat ++ toHex2 b.toNat)⟩
  | _, _, _ => none

/-- A well-formed hex colour: `'#'` followed by exactly six hexadecimal digits,
in either case. -/
def wellFormedHex (hex : String) : Bool :=
  hex.data.length == 7 && hex.data.head? == some '#'
    && hex.data.tail.all (fun c => (hexDigitValue c).isSome)

/-- The twenty-two hexadecimal digit characters. -/
def hexChars : List Char := "0123456789abcdefABCDEF".data

/-! ## History manager -/

/-- The field `maxHistorySize`, set to `20` by the constructor and never
assigned again. -/
def maxHistorySize : ℕ := 20

/-- The field `colorHistory` as the constructor leaves it. -/
def initialHistory : List String := []

/-- `addToHistory(hexColor)` of `popup.js`, lines 175-189, as a function of the
array `colorHistory`: `filter` with `!==`, `unshift`, then `slice(0, max)` when
the length exceeds `maxHistorySize`. -/
def addToHistory (hexColor : String) (colorHistory : List String) : List String :=
  let filtered := colorHistory.filter (fun color => decide (color ≠ hexColor))
  let unshifted := hexColor :: filtered
  if unshifted.length > maxHistorySize then unshifted.take maxHistorySize else unshifted

/-- `clearColorHistory()` of `popup.js`, lines 219-224. -/
def clearColorHistory (_colorHistory : List String) : List String := []

/-- The two operations that mutate the history. -/
inductive Op where
  | add (hexColor : String)
  | clear

/-- One mutation of the history. -/
def Op.apply (op : Op) (colorHistory : List String) : List String :=
  match op with
  | .add hexColor => addToHistory hexColor colorHistory
  | .clear => clearColorHistory colorHistory

/-- The history reached from the empty one by the operations `ops`, the first
of the list applied first. -/
def run (ops : List Op) : List String :=
  ops.foldl (fun history op => op.apply history) initialHistory

/-- The history after adding `colors` one after another to the empty history. -/
def addAll (colors : List String) : List String :=
  colors.foldl (fun history c => addToHistory c history) initialHistory

/-- The history invariant: at most twenty entries, none of them twice. -/
def HistoryInvariant (colorHistory : List String) : Prop :=
  colorHistory.length ≤ 20 ∧ colorHistory.Nodup

instance (h : List String) : Decidable (HistoryInvariant h) := by
  unfold HistoryInvariant; infer_instance

/-- Twenty-one pairwise distinct colours, in the order they are added. -/
def sampleColors : List String :=
  ["#000000", "#000001", "#000002", "#000003", "#000004", "#000005", "#000006",
   "#000007", "#000008", "#000009", "#00000A", "#00000B", "#00000C", "#00000D",
   "#00000E", "#00000F", "#000010", "#000011", "#000012", "#000013", "#000014"]

/-! ## Auxiliary facts on the colour model -/

/-- Rounding a non-negative number gives a non-negative integer. -/
theorem mathRound_nonneg {x : ℚ} (hx : 0 ≤ x) : 0 ≤ mathRound x := by
  unfold mathRound
  exact Int.floor_nonneg.mpr (by linarith)

/-- Rounding a number that is at most the integer `n` gives at most `n`. -/
theorem mathRound_le {x : ℚ} {n : ℤ} (hx : x ≤ n) : mathRound x ≤ n := by
  unfold mathRound
  have h1 : ⌊x + 1 / 2⌋ < n + 1 := by
    rw [Int.floor_lt]
    push_cast
    linarith
  omega

/-- `Math.round(0)` is `0`. -/
theorem mathRound_zero : mathRound 0 = 0 := by
  norm_num [mathRound]

/-- The hue before rounding lies in `[0, 360)` whenever the channels differ. -/
theorem hue_raw_bounds (r g b : ℚ)
    (hd : Max.max r (Max.max g b) - Min.min r (Min.min g b) ≠ 0) :
    let max := Max.max r (Max.max g b)
    let diff := max - Min.min r (Min.min g b)
    let h := (if max = r then (g - b) / diff + (if g < b then 6 else 0)
       else if max = g then (b - r) / diff + 2
       else if max = b then (r - g) / diff + 4
       else 0) / 6
    0 ≤ h * 360 ∧ h * 360 < 360 := by
  intro max diff h
  have hmr : r ≤ max := le_max_left _ _
  have hmg : g ≤ max := le_trans (le_max_left _ _) (le_max_right _ _)
  have hmb : b ≤ max := le_trans (le_max_right _ _) (le_max_right _ _)
  have hnr : Min.min r (Min.min g b) ≤ r := min_le_left _ _
  have hng : Min.min r (Min.min g b) ≤ g := le_trans (min_le_right _ _) (min_le_left _ _)
  have hnb : Min.min r (Min.min g b) ≤ b := le_trans (min_le_right _ _) (min_le_right _ _)
  have hdpos : 0 < diff := by
    have : 0 ≤ diff := by simp only [diff]; linarith
    exact lt_of_le_of_ne this (Ne.symm hd)
  have key : ∀ x y : ℚ, x ≤ max → Min.min r (Min.min g b) ≤ y → (x - y) / diff ≤ 1 := by
    intro x y hx hy
    rw [div_le_one hdpos]
    simp only [diff]; linarith
  have key2 : ∀ x y : ℚ, Min.min r (Min.min g b) ≤ x → y ≤ max → -1 ≤ (x - y) / diff := by
    intro x y hx hy
    rw [le_div_iff₀ hdpos]
    simp only [diff]; linarith
  simp only [h]
  by_cases h1 : max = r
  · rw [if_pos h1]
    by_cases h2 : g < b
    · rw [if_pos h2]
      have := key2 g b hng hmb
      have hneg : (g - b) / diff < 0 := div_neg_of_neg_of_pos (by linarith) hdpos
      constructor <;> linarith
    · rw [if_neg h2]
      have := key g b hmg hnb
      have hpos : 0 ≤ (g - b) / diff := div_nonneg (by linarith) hdpos.le
      constructor <;> linarith
  · rw [if_neg h1]
    by_cases h2 : max = g
    · rw [if_pos h2]
      have := key b r hmb hnr
      have := key2 b r hnb hmr
      constructor <;> linarith
    · rw [if_neg h2]
      by_cases h3 : max = b
      · rw [if_pos h3]
        have := key r g hmr hng
        have := key2 r g hnr hmg
        constructor <;> linarith
      · rw [if_neg h3]
        norm_num

/-- Saturation before rounding lies in `[0, 1]` for channels in `[0, 1]`. -/
theorem sat_raw_bounds (r g b : ℚ) (hr0 : 0 ≤ r) (hg0 : 0 ≤ g) (hb0 : 0 ≤ b)
    (hr1 : r ≤ 1) (hg1 : g ≤ 1) (hb1 : b ≤ 1)
    (hd : Max.max r (Max.max g b) - Min.min r (Min.min g b) ≠ 0) :
    let max := Max.max r (Max.max g b)
    let min := Min.min r (Min.min g b)
    let diff := max - min
    let sum := max + min
    let s := if sum / 2 > 1 / 2 then diff / (2 - sum) else diff / sum
    0 ≤ s ∧ s ≤ 1 := by
  intro max min diff sum s
  have hmr : r ≤ max := le_max_left _ _
  have hnr : min ≤ r := min_le_left _ _
  have hm1 : max ≤ 1 := max_le hr1 (max_le hg1 hb1)
  have hn0 : 0 ≤ min := le_min hr0 (le_min hg0 hb0)
  have hdpos : 0 < diff := by
    have : 0 ≤ diff := by simp only [diff]; linarith
    exact lt_of_le_of_ne this (Ne.symm hd)
  simp only [s]
  by_cases hl : sum / 2 > 1 / 2
  · rw [if_pos hl]
    have h2 : 0 < 2 - sum := by simp only [sum, diff] at *; linarith
    refine ⟨div_nonneg hdpos.le h2.le, ?_⟩
    rw [div_le_one h2]
    simp only [sum, diff]; linarith
  · rw [if_neg hl]
    have h2 : 0 < sum := by simp only [sum, diff] at *; linarith
    refine ⟨div_nonneg hdpos.le h2.le, ?_⟩
    rw [div_le_one h2]
    simp only [sum, diff]; linarith

/-- The rounded hue lies in `0..360`, for any rational channels. -/
theorem hue_range_aux (r g b : ℚ) :
    0 ≤ (rgbToHsl r g b).h ∧ (rgbToHsl r g b).h ≤ 360 := by
  by_cases hd : Max.max (r / 255) (Max.max (g / 255) (b / 255))
      - Min.min (r / 255) (Min.min (g / 255) (b / 255)) ≠ 0
  · obtain ⟨h1, h2⟩ := hue_raw_bounds _ _ _ hd
    simp only [rgbToHsl, if_pos hd]
    exact ⟨mathRound_nonneg h1, mathRound_le (by push_cast; linarith)⟩
  · simp only [rgbToHsl, if_neg hd]
    norm_num [mathRound]

/-- The rounded saturation and lightness lie in `0..100` for channels in
`[0, 255]`. -/
theorem sat_light_range_aux (r g b : ℚ) (hr0 : 0 ≤ r) (hg0 : 0 ≤ g) (hb0 : 0 ≤ b)
    (hr1 : r ≤ 255) (hg1 : g ≤ 255) (hb1 : b ≤ 255) :
    (0 ≤ (rgbToHsl r g b).s ∧ (rgbToHsl r g b).s ≤ 100)
      ∧ (0 ≤ (rgbToHsl r g b).l ∧ (rgbToHsl r g b).l ≤ 100) := by
  have hR0 : 0 ≤ r / 255 := by positivity
  have hG0 : 0 ≤ g / 255 := by positivity
  have hB0 : 0 ≤ b / 255 := by positivity
  have hR1 : r / 255 ≤ 1 := by rw [div_le_one (by norm_num)]; exact hr1
  have hG1 : g / 255 ≤ 1 := by rw [div_le_one (by norm_num)]; exact hg1
  have hB1 : b / 255 ≤ 1 := by rw [div_le_one (by norm_num)]; exact hb1
  have hm1 : Max.max (r / 255) (Max.max (g / 255) (b / 255)) ≤ 1 := max_le hR1 (max_le hG1 hB1)
  have hm0 : 0 ≤ Max.max (r / 255) (Max.max (g / 255) (b / 255)) := le_trans hR0 (le_max_left _ _)
  have hn0 : 0 ≤ Min.min (r / 255) (Min.min (g / 255) (b / 255)) := le_min hR0 (le_min hG0 hB0)
  have hn1 : Min.min (r / 255) (Min.min (g / 255) (b / 255)) ≤ 1 := le_trans (min_le_left _ _) hR1
  constructor
  · by_cases hd : Max.max (r / 255) (Max.max (g / 255) (b / 255))
        - Min.min (r / 255) (Min.min (g / 255) (b / 255)) ≠ 0
    · obtain ⟨h1, h2⟩ := sat_raw_bounds _ _ _ hR0 hG0 hB0 hR1 hG1 hB1 hd
      simp only [rgbToHsl, if_pos hd]
      exact ⟨mathRound_nonneg (by linarith), mathRound_le (by push_cast; linarith)⟩
    · simp only [rgbToHsl, if_neg hd]
      norm_num [mathRound]
  · simp only [rgbToHsl]
    exact ⟨mathRound_nonneg (by linarith), mathRound_le (by push_cast; linarith)⟩

/-- Two channels that both attain the maximum have the same `case` value. -/
theorem hueCase_tie (r g b : ℚ) (c1 c2 : Channel)
    (h1 : Max.max r (Max.max g b) = c1.value r g b)
    (h2 : Max.max r (Max.max g b) = c2.value r g b)
    (hd : Max.max r (Max.max g b) - Min.min r (Min.min g b) ≠ 0) :
    hueCase c1 r g b (Max.max r (Max.max g b) - Min.min r (Min.min g b))
      = hueCase c2 r g b (Max.max r (Max.max g b) - Min.min r (Min.min g b)) := by
  have hmr : r ≤ Max.max r (Max.max g b) := le_max_left _ _
  have hmg : g ≤ Max.max r (Max.max g b) := le_trans (le_max_left _ _) (le_max_right _ _)
  have hmb : b ≤ Max.max r (Max.max g b) := le_trans (le_max_right _ _) (le_max_right _ _)
  have rg : r = g → Min.min r (Min.min g b) = b ∨ Min.min r (Min.min g b) = r := by
    intro h
    subst h
    rcases le_total r b with h | h
    · right; simp [h]
    · left; simp [h]
  have gb : g = b → Min.min r (Min.min g b) = r ∨ Min.min r (Min.min g b) = g := by
    intro h
    subst h
    rcases le_total r g with h | h
    · left; simp [h]
    · right; simp [h]
  have rb : r = b → Min.min r (Min.min g b) = g ∨ Min.min r (Min.min g b) = r := by
    intro h
    subst h
    rcases le_total r g with h | h
    · right; simp [h]
    · left; simp [h]
  cases c1 <;> cases c2 <;> simp only [Channel.value] at h1 h2 <;> simp only [hueCase]
  · -- red, green
    have e : r = g := by rw [← h1, h2]
    rcases rg e with h | h
    · rw [h] at hd ⊢
      rw [h1] at hd ⊢
      have hlt : ¬ g < b := by rw [← e]; rw [h1] at hmb; exact not_lt.mpr hmb
      rw [if_neg hlt, ← e]
      field_simp
      ring
    · rw [h, h1] at hd; exact absurd (sub_self r) hd
  · -- red, blue
    have e : r = b := by rw [← h1, h2]
    rcases rb e with h | h
    · rw [h] at hd ⊢
      rw [h1] at hd ⊢
      have hlt : g < b := by
        rw [← e]
        rw [h1] at hmg
        exact lt_of_le_of_ne hmg (fun hh => hd (by rw [hh]; ring))
      rw [if_pos hlt, ← e]
      field_simp
      ring
    · rw [h, h1] at hd; exact absurd (sub_self r) hd
  · -- green, red
    have e : r = g := by rw [← h2, h1]
    rcases rg e with h | h
    · rw [h] at hd ⊢
      rw [h2] at hd ⊢
      have hlt : ¬ g < b := by rw [← e]; rw [h2] at hmb; exact not_lt.mpr hmb
      rw [if_neg hlt, ← e]
      field_simp
      ring
    · rw [h, h2] at hd; exact absurd (sub_self r) hd
  · -- green, blue
    have e : g = b := by rw [← h1, h2]
    rcases gb e with h | h
    · rw [h] at hd ⊢
      rw [h1] at hd ⊢
      rw [← e]
      field_simp
      ring
    · rw [h, h1] at hd; exact absurd (sub_self g) hd
  · -- blue, red
    have e : r = b := by rw [← h2, h1]
    rcases rb e with h | h
    · rw [h] at hd ⊢
      rw [h2] at hd ⊢
      have hlt : g < b := by
        rw [← e]
        rw [h2] at hmg
        exact lt_of_le_of_ne hmg (fun hh => hd (by rw [hh]; ring))
      rw [if_pos hlt, ← e]
      field_simp
      ring
    · rw [h, h2] at hd; exact absurd (sub_self r) hd
  · -- blue, green
    have e : g = b := by rw [← h2, h1]
    rcases gb e with h | h
    · rw [h] at hd ⊢
      rw [h2] at hd ⊢
      rw [← e]
      field_simp
      ring
    · rw [h, h2] at hd; exact absurd (sub_self g) hd

/-- Some channel attains the maximum. -/
theorem exists_channel_max (r g b : ℚ) :
    ∃ c : Channel, Max.max r (Max.max g b) = c.value r g b := by
  rcases max_choice r (Max.max g b) with h | h
  · exact ⟨.red, h⟩
  · rcases max_choice g b with h2 | h2
    · exact ⟨.green, by rw [h, h2]; rfl⟩
    · exact ⟨.blue, by rw [h, h2]; rfl⟩

/-- The `switch (max)` of the source, in the order red, green, blue, takes the
`case` body of any channel attaining the maximum. -/
theorem switch_eq_hueCase (r g b : ℚ) (c : Channel)
    (hc : Max.max r (Max.max g b) = c.value r g b)
    (hd : Max.max r (Max.max g b) - Min.min r (Min.min g b) ≠ 0) :
    (if Max.max r (Max.max g b) = r then
        (g - b) / (Max.max r (Max.max g b) - Min.min r (Min.min g b)) + (if g < b then 6 else 0)
      else if Max.max r (Max.max g b) = g then
        (b - r) / (Max.max r (Max.max g b) - Min.min r (Min.min g b)) + 2
      else if Max.max r (Max.max g b) = b then
        (r - g) / (Max.max r (Max.max g b) - Min.min r (Min.min g b)) + 4
      else 0)
      = hueCase c r g b (Max.max r (Max.max g b) - Min.min r (Min.min g b)) := by
  by_cases h1 : Max.max r (Max.max g b) = r
  · rw [if_pos h1]
    exact hueCase_tie r g b .red c h1 hc hd
  · rw [if_neg h1]
    by_cases h2 : Max.max r (Max.max g b) = g
    · rw [if_pos h2]
      exact hueCase_tie r g b .green c h2 hc hd
    · rw [if_neg h2]
      by_cases h3 : Max.max r (Max.max g b) = b
      · rw [if_pos h3]
        exact hueCase_tie r g b .blue c h3 hc hd
      · cases c
        · exact absurd hc h1
        · exact absurd hc h2
        · exact absurd hc h3

/-- Testing the channels in an order that lists all three of them gives the
result of `rgbToHsl`. -/
theorem rgbToHslOrder_eq_aux (ord : List Channel) (hord : ∀ c : Channel, c ∈ ord)
    (r g b : ℚ) : rgbToHslOrder ord r g b = rgbToHsl r g b := by
  by_cases hd : Max.max (r / 255) (Max.max (g / 255) (b / 255))
      - Min.min (r / 255) (Min.min (g / 255) (b / 255)) ≠ 0
  · simp only [rgbToHslOrder, rgbToHsl, if_pos hd]
    obtain ⟨c0, hc0⟩ := exists_channel_max (r / 255) (g / 255) (b / 255)
    cases hf : ord.find? (fun c => decide (Max.max (r / 255) (Max.max (g / 255) (b / 255))
        = c.value (r / 255) (g / 255) (b / 255))) with
    | none =>
      rw [List.find?_eq_none] at hf
      exact absurd (by simpa using hc0) (hf c0 (hord c0))
    | some c =>
      have hc := List.find?_some hf
      simp only [decide_eq_true_eq] at hc
      simp only
      rw [switch_eq_hueCase _ _ _ c hc hd]
  · simp only [rgbToHslOrder, rgbToHsl, if_neg hd]

/-! ## Auxiliary facts on hex strings -/

set_option maxRecDepth 100000 in
/-- Parsing two hex digits and writing the value back as two uppercase digits
gives the uppercase of the two digits, checked on all pairs. -/
theorem pair_ok : ∀ a ∈ hexChars, ∀ b ∈ hexChars,
    (parseInt16 [a, b]).map (fun n => toHex2 n.toNat) = some [a.toUpper, b.toUpper] := by
  decide

/-- A character with a radix-16 value is one of the twenty-two hex digits. -/
theorem mem_hexChars_of_isSome (c : Char) (h : (hexDigitValue c).isSome = true) :
    c ∈ hexChars := by
  have hc : c = Char.ofNat c.toNat := (Char.ofNat_toNat c).symm
  unfold hexDigitValue at h
  split_ifs at h with h1 h2 h3
  · obtain ⟨ha, hb⟩ := h1
    rw [hc]
    generalize c.toNat = n at ha hb
    interval_cases n <;> decide
  · obtain ⟨ha, hb⟩ := h2
    rw [hc]
    generalize c.toNat = n at ha hb
    interval_cases n <;> decide
  · obtain ⟨ha, hb⟩ := h3
    rw [hc]
    generalize c.toNat = n at ha hb
    interval_cases n <;> decide
  · simp at h

/-- The uppercase of a hex digit is a hex digit, and is its own uppercase. -/
theorem hexChars_upper : ∀ a ∈ hexChars,
    (hexDigitValue a.toUpper).isSome = true ∧ a.toUpper.toUpper = a.toUpper := by
  decide

/-- The shape of a well-formed hex colour. -/
theorem wellFormedHex_data (hex : String) (h : wellFormedHex hex = true) :
    ∃ a b c d e f : Char, hex.data = ['#', a, b, c, d, e, f]
      ∧ a ∈ hexChars ∧ b ∈ hexChars ∧ c ∈ hexChars ∧ d ∈ hexChars ∧ e ∈ hexChars
      ∧ f ∈ hexChars := by
  obtain ⟨l⟩ := hex
  simp only [wellFormedHex, Bool.and_eq_true, beq_iff_eq, List.all_eq_true] at h
  obtain ⟨⟨hlen, hhead⟩, hall⟩ := h
  match l, hlen, hhead, hall with
  | [x, a, b, c, d, e, f], _, hhead, hall =>
    simp only [List.head?_cons, Option.some.injEq] at hhead
    subst hhead
    refine ⟨a, b, c, d, e, f, rfl, ?_, ?_, ?_, ?_, ?_, ?_⟩ <;>
      exact mem_hexChars_of_isSome _ (hall _ (by simp))

/-- Parse-and-rebuild on `'#'` followed by six hex digits gives the uppercase
string. -/
theorem roundtrip_data (a b c d e f : Char) (ha : a ∈ hexChars) (hb : b ∈ hexChars)
    (hc : c ∈ hexChars) (hd : d ∈ hexChars) (he : e ∈ hexChars) (hf : f ∈ hexChars) :
    rebuildHex (hexToRgb ⟨['#', a, b, c, d, e, f]⟩)
      = some (toUpperCase ⟨['#', a, b, c, d, e, f]⟩) := by
  have h1 := pair_ok a ha b hb
  have h2 := pair_ok c hc d hd
  have h3 := pair_ok e he f hf
  rw [Option.map_eq_some'] at h1 h2 h3
  obtain ⟨n1, p1, q1⟩ := h1
  obtain ⟨n2, p2, q2⟩ := h2
  obtain ⟨n3, p3, q3⟩ := h3
  have e1 : slice ['#', a, b, c, d, e, f] 1 3 = [a, b] := rfl
  have e2 : slice ['#', a, b, c, d, e, f] 3 5 = [c, d] := rfl
  have e3 : slice ['#', a, b, c, d, e, f] 5 7 = [e, f] := rfl
  simp only [hexToRgb, e1, e2, e3, p1, p2, p3, rebuildHex, q1, q2, q3, toUpperCase]
  rfl

/-! ## Auxiliary facts on the history -/

/-- `addToHistory` keeps the first twenty entries of the new colour followed by
the old entries different from it. -/
theorem addToHistory_eq (c : String) (h : List String) :
    addToHistory c h = (c :: h.filter (fun color => decide (color ≠ c))).take 20 := by
  unfold addToHistory maxHistorySize
  simp only
  split_ifs with hlen
  · rfl
  · rw [List.take_of_length_le (not_lt.mp hlen)]

/-- After an add the history has at most twenty entries. -/
theorem addToHistory_length_le (c : String) (h : List String) :
    (addToHistory c h).length ≤ 20 := by
  rw [addToHistory_eq]
  exact List.length_take_le _ _

/-- An add keeps a duplicate-free history duplicate-free. -/
theorem addToHistory_nodup (c : String) (h : List String) (hn : h.Nodup) :
    (addToHistory c h).Nodup := by
  rw [addToHistory_eq]
  apply List.Nodup.sublist (List.take_sublist _ _)
  rw [List.nodup_cons]
  exact ⟨by simp, hn.filter _⟩

/-- An add preserves the history invariant. -/
theorem addToHistory_inv (c : String) (h : List String) (hi : HistoryInvariant h) :
    HistoryInvariant (addToHistory c h) :=
  ⟨addToHistory_length_le c h, addToHistory_nodup c h hi.2⟩

/-- Running one more operation. -/
theorem run_append (ops : List Op) (op : Op) : run (ops ++ [op]) = op.apply (run ops) := by
  simp [run, List.foldl_append]

/-- Every history reached from the empty one satisfies the invariant. -/
theorem run_inv (ops : List Op) : HistoryInvariant (run ops) := by
  induction ops using List.reverseRecOn with
  | nil => exact ⟨by simp [run, initialHistory], by simp [run, initialHistory]⟩
  | append_singleton ops op ih =>
    rw [run_append]
    cases op with
    | add c => exact addToHistory_inv c _ ih
    | clear => exact ⟨by simp [Op.apply, clearColorHistory], by simp [Op.apply, clearColorHistory]⟩

/-- Removing a colour that does not occur changes nothing. -/
theorem filter_ne_of_not_mem (c : String) (h : List String) (hc : c ∉ h) :
    h.filter (fun color => decide (color ≠ c)) = h := by
  rw [List.filter_eq_self]
  intro a ha
  simp only [ne_eq, decide_not, Bool.not_eq_eq_eq_not, Bool.not_true, decide_eq_false_iff_not]
  rintro rfl
  exact hc ha

/-- Adding the same colour twice in a row is the same as adding it once. -/
theorem addToHistory_idem_aux (c : String) (h : List String) :
    addToHistory c (addToHistory c h) = addToHistory c h := by
  rw [addToHistory_eq c h, addToHistory_eq]
  have h20 : (20 : ℕ) = 19 + 1 := rfl
  rw [h20, List.take_succ_cons, List.take_succ_cons]
  have hnm : c ∉ (List.filter (fun color => decide (color ≠ c)) h).take 19 := by
    intro hm
    have := List.mem_of_mem_take hm
    simp at this
  have : List.filter (fun color => decide (color ≠ c))
      (c :: (List.filter (fun color => decide (color ≠ c)) h).take 19)
      = (List.filter (fun color => decide (color ≠ c)) h).take 19 := by
    rw [List.filter_cons_of_neg (by simp)]
    exact filter_ne_of_not_mem c _ hnm
  rw [this, List.take_take]
  simp

/-- Adding one more colour after a sequence of adds. -/
theorem addAll_append (cs : List String) (c : String) :
    addAll (cs ++ [c]) = addToHistory c (addAll cs) := by
  simp [addAll, List.foldl_append]

/-- Adding pairwise distinct colours leaves the last twenty, newest first. -/
theorem addAll_nodup_eq (cs : List String) (hn : cs.Nodup) :
    addAll cs = cs.reverse.take 20 := by
  induction cs using List.reverseRecOn with
  | nil => rfl
  | append_singleton cs c ih =>
    have hn2 : cs.Nodup ∧ c ∉ cs := by
      rw [List.nodup_append] at hn
      refine ⟨hn.1, fun hm => ?_⟩
      exact hn.2.2 hm (by simp)
    rw [addAll_append, ih hn2.1, addToHistory_eq]
    have hnm : c ∉ cs.reverse.take 20 := fun hm =>
      hn2.2 (List.mem_reverse.mp (List.mem_of_mem_take hm))
    rw [filter_ne_of_not_mem c _ hnm, List.reverse_append]
    have h20 : (20 : ℕ) = 19 + 1 := rfl
    simp only [List.reverse_cons, List.reverse_nil, List.nil_append, List.singleton_append]
    rw [h20, List.take_succ_cons, List.take_succ_cons, List.take_take]
    simp

/-! ## The claims -/

/-- C1 (as stated, refuted): for the RGB triple `(255, 0, 1)`, within `0..255`,
`rgbToHsl` returns the hue `360`, which is not at most `359`. -/
theorem rgbToHsl_hue_reaches_360 :
    (255 : ℕ) ≤ 255 ∧ (0 : ℕ) ≤ 255 ∧ (1 : ℕ) ≤ 255
      ∧ (rgbToHsl ((255 : ℕ) : ℚ) ((0 : ℕ) : ℚ) ((1 : ℕ) : ℚ)).h = 360
      ∧ ¬ ((rgbToHsl ((255 : ℕ) : ℚ) ((0 : ℕ) : ℚ) ((1 : ℕ) : ℚ)).h ≤ 359) := by
  have h : (rgbToHsl ((255 : ℕ) : ℚ) ((0 : ℕ) : ℚ) ((1 : ℕ) : ℚ)).h = 360 := by
    norm_num [rgbToHsl, mathRound]
  refine ⟨by decide, by decide, by decide, h, ?_⟩
  rw [h]
  decide

/-- C1 (amended): for every RGB triple of integers `r, g, b` in `0..255`, the
hue returned by `rgbToHsl r g b` is an integer with `0 ≤ h ≤ 360`. -/
theorem rgbToHsl_hue_range (r g b : ℕ) (hr : r ≤ 255) (hg : g ≤ 255) (hb : b ≤ 255) :
    0 ≤ (rgbToHsl (r : ℚ) (g : ℚ) (b : ℚ)).h ∧ (rgbToHsl (r : ℚ) (g : ℚ) (b : ℚ)).h ≤ 360 :=
  hue_range_aux _ _ _

theorem rgbToHsl_hue_range_witness :
    ((255 : ℕ) ≤ 255 ∧ (0 : ℕ) ≤ 255 ∧ (1 : ℕ) ≤ 255)
      ∧ (0 ≤ (rgbToHsl ((255 : ℕ) : ℚ) ((0 : ℕ) : ℚ) ((1 : ℕ) : ℚ)).h
        ∧ (rgbToHsl ((255 : ℕ) : ℚ) ((0 : ℕ) : ℚ) ((1 : ℕ) : ℚ)).h ≤ 360) :=
  ⟨⟨by decide, by decide, by decide⟩,
    rgbToHsl_hue_range 255 0 1 (by decide) (by decide) (by decide)⟩

/-- C2: for every RGB triple of integers `r, g, b` in `0..255`, the saturation
and the lightness returned by `rgbToHsl r g b` are integers with `0 ≤ s ≤ 100`
and `0 ≤ l ≤ 100`. -/
theorem rgbToHsl_sat_light_range (r g b : ℕ) (hr : r ≤ 255) (hg : g ≤ 255) (hb : b ≤ 255) :
    (0 ≤ (rgbToHsl (r : ℚ) (g : ℚ) (b : ℚ)).s ∧ (rgbToHsl (r : ℚ) (g : ℚ) (b : ℚ)).s ≤ 100)
      ∧ (0 ≤ (rgbToHsl (r : ℚ) (g : ℚ) (b : ℚ)).l
        ∧ (rgbToHsl (r : ℚ) (g : ℚ) (b : ℚ)).l ≤ 100) :=
  sat_light_range_aux _ _ _ (Nat.cast_nonneg r) (Nat.cast_nonneg g) (Nat.cast_nonneg b)
    (by exact_mod_cast hr) (by exact_mod_cast hg) (by exact_mod_cast hb)

theorem rgbToHsl_sat_light_range_witness :
    ((12 : ℕ) ≤ 255 ∧ (200 : ℕ) ≤ 255 ∧ (77 : ℕ) ≤ 255)
      ∧ ((0 ≤ (rgbToHsl ((12 : ℕ) : ℚ) ((200 : ℕ) : ℚ) ((77 : ℕ) : ℚ)).s
          ∧ (rgbToHsl ((12 : ℕ) : ℚ) ((200 : ℕ) : ℚ) ((77 : ℕ) : ℚ)).s ≤ 100)
        ∧ (0 ≤ (rgbToHsl ((12 : ℕ) : ℚ) ((200 : ℕ) : ℚ) ((77 : ℕ) : ℚ)).l
          ∧ (rgbToHsl ((12 : ℕ) : ℚ) ((200 : ℕ) : ℚ) ((77 : ℕ) : ℚ)).l ≤ 100)) :=
  ⟨⟨by decide, by decide, by decide⟩,
    rgbToHsl_sat_light_range 12 200 77 (by decide) (by decide) (by decide)⟩

/-- C7: achromatic property. For every integer `v` in `0..255`,
`rgbToHsl v v v` has `h = 0` and `s = 0`, whatever the lightness. -/
theorem rgbToHsl_achromatic (v : ℕ) (hv : v ≤ 255) :
    (rgbToHsl (v : ℚ) (v : ℚ) (v : ℚ)).h = 0 ∧ (rgbToHsl (v : ℚ) (v : ℚ) (v : ℚ)).s = 0 := by
  constructor <;> norm_num [rgbToHsl, mathRound]

theorem rgbToHsl_achromatic_witness :
    (128 : ℕ) ≤ 255
      ∧ (rgbToHsl ((128 : ℕ) : ℚ) ((128 : ℕ) : ℚ) ((128 : ℕ) : ℚ)).h = 0
      ∧ (rgbToHsl ((128 : ℕ) : ℚ) ((128 : ℕ) : ℚ) ((128 : ℕ) : ℚ)).s = 0 :=
  ⟨by decide, rgbToHsl_achromatic 128 (by decide)⟩

/-- C8: the three reference values. `rgbToHsl 0 0 0` is `{h:0, s:0, l:0}`,
`rgbToHsl 255 255 255` is `{h:0, s:0, l:100}` and `rgbToHsl 255 0 0` is
`{h:0, s:100, l:50}`. -/
theorem rgbToHsl_reference_values :
    rgbToHsl 0 0 0 = { h := 0, s := 0, l := 0 }
      ∧ rgbToHsl 255 255 255 = { h := 0, s := 0, l := 100 }
      ∧ rgbToHsl 255 0 0 = { h := 0, s := 100, l := 50 } := by
  refine ⟨?_, ?_, ?_⟩ <;> norm_num [rgbToHsl, mathRound]

/-- C3: for every well-formed hex colour (`'#'` and six hexadecimal digits, in
either case), `hexToRgb` followed by rebuilding the string from the triple
gives the uppercase form of the original, and the same parse-and-rebuild
applied to that result returns it unchanged. -/
theorem hexToRgb_roundtrip (hex : String) (h : wellFormedHex hex = true) :
    rebuildHex (hexToRgb hex) = some (toUpperCase hex)
      ∧ rebuildHex (hexToRgb (toUpperCase hex)) = some (toUpperCase hex) := by
  obtain ⟨a, b, c, d, e, f, hdata, ha, hb, hc, hd, he, hf⟩ := wellFormedHex_data hex h
  obtain ⟨l⟩ := hex
  simp only at hdata
  subst hdata
  refine ⟨roundtrip_data a b c d e f ha hb hc hd he hf, ?_⟩
  have hu : toUpperCase ⟨['#', a, b, c, d, e, f]⟩
      = ⟨['#', a.toUpper, b.toUpper, c.toUpper, d.toUpper, e.toUpper, f.toUpper]⟩ := rfl
  have hw : wellFormedHex
      ⟨['#', a.toUpper, b.toUpper, c.toUpper, d.toUpper, e.toUpper, f.toUpper]⟩ = true := by
    simp [wellFormedHex, (hexChars_upper a ha).1, (hexChars_upper b hb).1,
      (hexChars_upper c hc).1, (hexChars_upper d hd).1, (hexChars_upper e he).1,
      (hexChars_upper f hf).1]
  obtain ⟨a2, b2, c2, d2, e2, f2, hdata2, ha2, hb2, hc2, hd2, he2, hf2⟩ :=
    wellFormedHex_data _ hw
  simp only [List.cons.injEq, true_and, and_true] at hdata2
  obtain ⟨r1, r2, r3, r4, r5, r6⟩ := hdata2
  rw [hu, r1, r2, r3, r4, r5, r6, roundtrip_data a2 b2 c2 d2 e2 f2 ha2 hb2 hc2 hd2 he2 hf2]
  simp only [toUpperCase, List.map_cons, List.map_nil]
  rw [← r1, ← r2, ← r3, ← r4, ← r5, ← r6, (hexChars_upper a ha).2, (hexChars_upper b hb).2,
    (hexChars_upper c hc).2, (hexChars_upper d hd).2, (hexChars_upper e he).2,
    (hexChars_upper f hf).2]
  rfl

theorem hexToRgb_roundtrip_witness :
    wellFormedHex "#a1B2c3" = true
      ∧ rebuildHex (hexToRgb "#a1B2c3") = some (toUpperCase "#a1B2c3")
      ∧ rebuildHex (hexToRgb (toUpperCase "#a1B2c3")) = some (toUpperCase "#a1B2c3") :=
  ⟨by decide, hexToRgb_roundtrip "#a1B2c3" (by decide)⟩

/-- C4: the invariant (at most 20 entries, no entry twice) holds of the empty
history, is preserved by `addToHistory c` and by `clearColorHistory` from any
history satisfying it, and so holds in every state reached from the empty
history by a sequence of add and clear. -/
theorem history_invariant (h : List String) (c : String) (ops : List Op)
    (hi : HistoryInvariant h) :
    HistoryInvariant initialHistory
      ∧ HistoryInvariant (addToHistory c h)
      ∧ HistoryInvariant (clearColorHistory h)
      ∧ HistoryInvariant (run ops) := by
  refine ⟨?_, addToHistory_inv c h hi, ?_, run_inv ops⟩
  · exact ⟨by simp [initialHistory], by simp [initialHistory]⟩
  · exact ⟨by simp [clearColorHistory], by simp [clearColorHistory]⟩

theorem history_invariant_witness :
    HistoryInvariant ["#00FF00", "#FF0000"]
      ∧ HistoryInvariant initialHistory
      ∧ HistoryInvariant (addToHistory "#FF0000" ["#00FF00", "#FF0000"])
      ∧ HistoryInvariant (clearColorHistory ["#00FF00", "#FF0000"])
      ∧ HistoryInvariant (run [Op.add "#FF0000", Op.clear, Op.add "#00FF00"]) :=
  ⟨by decide, history_invariant ["#00FF00", "#FF0000"] "#FF0000"
    [Op.add "#FF0000", Op.clear, Op.add "#00FF00"] (by decide)⟩

/-- C5: on a history without duplicates, of at most 20 entries, that already
contains `c`, `addToHistory c` gives a history whose first entry is `c`, in
which `c` occurs exactly once, whose other entries are the other entries of
the old history in their original order, and whose length is the old length.
Starting empty, adding `#FF0000`, `#00FF00`, `#FF0000` gives
`[#FF0000, #00FF00]`. -/
theorem addToHistory_promotes (h : List String) (c : String) (hn : h.Nodup)
    (hl : h.length ≤ 20) (hc : c ∈ h) :
    (addToHistory c h).head? = some c
      ∧ (addToHistory c h).count c = 1
      ∧ (addToHistory c h).tail = h.filter (fun color => decide (color ≠ c))
      ∧ (addToHistory c h).length = h.length
      ∧ addAll ["#FF0000", "#00FF00", "#FF0000"] = ["#FF0000", "#00FF00"] := by
  have hlen : (h.filter (fun color => decide (color ≠ c))).length + 1 = h.length := by
    have e : h.filter (fun color => decide (color ≠ c)) = h.erase c := by
      rw [hn.erase_eq_filter]
      congr 1
      funext x
      by_cases hx : x = c <;> simp [hx]
    rw [e, List.length_erase_of_mem hc]
    have : 0 < h.length := List.length_pos_of_mem hc
    omega
  have hadd : addToHistory c h = c :: h.filter (fun color => decide (color ≠ c)) := by
    rw [addToHistory_eq]
    apply List.take_of_length_le
    rw [List.length_cons, hlen]
    exact hl
  rw [hadd]
  refine ⟨rfl, ?_, rfl, ?_, by decide⟩
  · rw [List.count_cons_self, List.count_eq_zero_of_not_mem (by simp)]
  · rw [List.length_cons, hlen]

theorem addToHistory_promotes_witness :
    (["#00FF00", "#FF0000"].Nodup ∧ ["#00FF00", "#FF0000"].length ≤ 20
        ∧ "#FF0000" ∈ ["#00FF00", "#FF0000"])
      ∧ (addToHistory "#FF0000" ["#00FF00", "#FF0000"]).head? = some "#FF0000"
      ∧ (addToHistory "#FF0000" ["#00FF00", "#FF0000"]).count "#FF0000" = 1
      ∧ (addToHistory "#FF0000" ["#00FF00", "#FF0000"]).tail
          = ["#00FF00", "#FF0000"].filter (fun color => decide (color ≠ "#FF0000"))
      ∧ (addToHistory "#FF0000" ["#00FF00", "#FF0000"]).length
          = ["#00FF00", "#FF0000"].length
      ∧ addAll ["#FF0000", "#00FF00", "#FF0000"] = ["#FF0000", "#00FF00"] :=
  ⟨⟨by decide, by decide, by decide⟩,
    addToHistory_promotes ["#00FF00", "#FF0000"] "#FF0000" (by decide) (by decide) (by decide)⟩

/-- C10: `addToHistory` is idempotent under immediate repetition. For every
history, with or without duplicates and of any length, and every colour `c`,
adding `c` twice in succession leaves the same sequence as adding it once. -/
theorem addToHistory_idempotent (h : List String) (c : String) :
    addToHistory c (addToHistory c h) = addToHistory c h :=
  addToHistory_idem_aux c h

/-- C6: adding `n` pairwise distinct colours one after another to the empty
history leaves the last `min n 20` of them in reverse order of addition; for
`n = 21` the history has exactly 20 entries, the colour added last is at the
front, and the only colour missing is the one added first. -/
theorem addAll_distinct (cs : List String) (hn : cs.Nodup) :
    addAll cs = (cs.drop (cs.length - min cs.length 20)).reverse
      ∧ (cs.length = 21 →
          (addAll cs).length = 20
            ∧ (addAll cs).head? = cs.getLast?
            ∧ ∀ c ∈ cs, (c ∉ addAll cs ↔ cs.head? = some c)) := by
  have hmain : addAll cs = (cs.drop (cs.length - min cs.length 20)).reverse := by
    rw [addAll_nodup_eq cs hn, List.take_reverse]
    congr 2
    omega
  refine ⟨hmain, fun hlen => ?_⟩
  have h1 : addAll cs = (cs.drop 1).reverse := by
    rw [hmain, hlen]
    rfl
  match cs, hn, hlen, h1 with
  | a :: rest, hn, hlen, h1 =>
    simp only [List.drop_succ_cons, List.drop_zero] at h1
    have hlen20 : rest.length = 20 := by
      simp only [List.length_cons] at hlen
      omega
    have hne : rest ≠ [] := by
      intro h0
      rw [h0] at hlen20
      simp at hlen20
    rw [h1]
    refine ⟨by simp [hlen20], ?_, ?_⟩
    · obtain ⟨x, t, rfl⟩ := List.exists_cons_of_ne_nil hne
      rw [List.head?_reverse, List.getLast?_cons_cons]
    · intro c hc
      rw [List.nodup_cons] at hn
      simp only [List.mem_reverse, List.head?_cons, Option.some.injEq]
      rcases List.mem_cons.mp hc with h | h
      · subst h
        exact ⟨fun _ => rfl, fun _ => hn.1⟩
      · constructor
        · intro hcn
          exact absurd h hcn
        · intro hca
          subst hca
          exact hn.1

theorem addAll_distinct_witness :
    sampleColors.Nodup
      ∧ addAll sampleColors
          = (sampleColors.drop (sampleColors.length - min sampleColors.length 20)).reverse
      ∧ (addAll sampleColors).length = 20
      ∧ (addAll sampleColors).head? = sampleColors.getLast?
      ∧ ∀ c ∈ sampleColors, (c ∉ addAll sampleColors ↔ sampleColors.head? = some c) :=
  ⟨by decide, (addAll_distinct sampleColors (by decide)).1,
    (addAll_distinct sampleColors (by decide)).2 (by decide)⟩

/-- C9: the result of `rgbToHsl` does not depend on the order in which the
`switch` tests the channels. For every RGB triple of integers in `0..255`,
when two channels tie for the maximum and the third is smaller, the hue
formulas of the two tied channels give the same value; and `rgbToHsl`, which
tests red, then green, then blue, equals the variant testing the channels in
any other order `ord`. -/
theorem rgbToHsl_switch_order_irrelevant (ord : List Channel)
    (hord : ord.Perm [Channel.red, Channel.green, Channel.blue])
    (r g b : ℕ) (hr : r ≤ 255) (hg : g ≤ 255) (hb : b ≤ 255) :
    (∀ c1 c2 : Channel, c1 ≠ c2 →
        c1.value ((r : ℚ) / 255) ((g : ℚ) / 255) ((b : ℚ) / 255)
          = Max.max ((r : ℚ) / 255) (Max.max ((g : ℚ) / 255) ((b : ℚ) / 255)) →
        c2.value ((r : ℚ) / 255) ((g : ℚ) / 255) ((b : ℚ) / 255)
          = Max.max ((r : ℚ) / 255) (Max.max ((g : ℚ) / 255) ((b : ℚ) / 255)) →
        (∀ c3 : Channel, c3 ≠ c1 → c3 ≠ c2 →
          c3.value ((r : ℚ) / 255) ((g : ℚ) / 255) ((b : ℚ) / 255)
            < Max.max ((r : ℚ) / 255) (Max.max ((g : ℚ) / 255) ((b : ℚ) / 255))) →
        hueCase c1 ((r : ℚ) / 255) ((g : ℚ) / 255) ((b : ℚ) / 255)
            (Max.max ((r : ℚ) / 255) (Max.max ((g : ℚ) / 255) ((b : ℚ) / 255))
              - Min.min ((r : ℚ) / 255) (Min.min ((g : ℚ) / 255) ((b : ℚ) / 255)))
          = hueCase c2 ((r : ℚ) / 255) ((g : ℚ) / 255) ((b : ℚ) / 255)
            (Max.max ((r : ℚ) / 255) (Max.max ((g : ℚ) / 255) ((b : ℚ) / 255))
              - Min.min ((r : ℚ) / 255) (Min.min ((g : ℚ) / 255) ((b : ℚ) / 255))))
      ∧ rgbToHslOrder ord (r : ℚ) (g : ℚ) (b : ℚ) = rgbToHsl (r : ℚ) (g : ℚ) (b : ℚ) := by
  constructor
  · intro c1 c2 _ h1 h2 h3
    by_cases hd : Max.max ((r : ℚ) / 255) (Max.max ((g : ℚ) / 255) ((b : ℚ) / 255))
        - Min.min ((r : ℚ) / 255) (Min.min ((g : ℚ) / 255) ((b : ℚ) / 255)) ≠ 0
    · exact hueCase_tie _ _ _ c1 c2 h1.symm h2.symm hd
    · exfalso
      have hd0 := sub_eq_zero.mp (not_not.mp hd)
      have hmr : (r : ℚ) / 255 ≤ Max.max ((r : ℚ) / 255) (Max.max ((g : ℚ) / 255) ((b : ℚ) / 255)) :=
        le_max_left _ _
      have hmg : (g : ℚ) / 255 ≤ Max.max ((r : ℚ) / 255) (Max.max ((g : ℚ) / 255) ((b : ℚ) / 255)) :=
        le_trans (le_max_left _ _) (le_max_right _ _)
      have hmb : (b : ℚ) / 255 ≤ Max.max ((r : ℚ) / 255) (Max.max ((g : ℚ) / 255) ((b : ℚ) / 255)) :=
        le_trans (le_max_right _ _) (le_max_right _ _)
      have hnr : Min.min ((r : ℚ) / 255) (Min.min ((g : ℚ) / 255) ((b : ℚ) / 255)) ≤ (r : ℚ) / 255 :=
        min_le_left _ _
      have hng : Min.min ((r : ℚ) / 255) (Min.min ((g : ℚ) / 255) ((b : ℚ) / 255)) ≤ (g : ℚ) / 255 :=
        le_trans (min_le_right _ _) (min_le_left _ _)
      have hnb : Min.min ((r : ℚ) / 255) (Min.min ((g : ℚ) / 255) ((b : ℚ) / 255)) ≤ (b : ℚ) / 255 :=
        le_trans (min_le_right _ _) (min_le_right _ _)
      have hall : ∀ c : Channel, c.value ((r : ℚ) / 255) ((g : ℚ) / 255) ((b : ℚ) / 255)
          = Max.max ((r : ℚ) / 255) (Max.max ((g : ℚ) / 255) ((b : ℚ) / 255)) := by
        intro c
        cases c <;> simp only [Channel.value] <;> linarith
      cases c1 <;> cases c2 <;> first
        | contradiction
        | exact absurd (hall Channel.red) (ne_of_lt (h3 Channel.red (by decide) (by decide)))
        | exact absurd (hall Channel.green) (ne_of_lt (h3 Channel.green (by decide) (by decide)))
        | exact absurd (hall Channel.blue) (ne_of_lt (h3 Channel.blue (by decide) (by decide)))
  · exact rgbToHslOrder_eq_aux ord (fun c => hord.mem_iff.mpr (by cases c <;> simp)) _ _ _

theorem rgbToHsl_switch_order_irrelevant_witness :
    ([Channel.blue, Channel.green, Channel.red].Perm [Channel.red, Channel.green, Channel.blue]
        ∧ (200 : ℕ) ≤ 255 ∧ (200 : ℕ) ≤ 255 ∧ (10 : ℕ) ≤ 255)
      ∧ hueCase Channel.red (((200 : ℕ) : ℚ) / 255) (((200 : ℕ) : ℚ) / 255) (((10 : ℕ) : ℚ) / 255)
            (Max.max (((200 : ℕ) : ℚ) / 255) (Max.max (((200 : ℕ) : ℚ) / 255) (((10 : ℕ) : ℚ) / 255))
              - Min.min (((200 : ℕ) : ℚ) / 255)
                  (Min.min (((200 : ℕ) : ℚ) / 255) (((10 : ℕ) : ℚ) / 255)))
          = hueCase Channel.green (((200 : ℕ) : ℚ) / 255) (((200 : ℕ) : ℚ) / 255)
            (((10 : ℕ) : ℚ) / 255)
            (Max.max (((200 : ℕ) : ℚ) / 255) (Max.max (((200 : ℕ) : ℚ) / 255) (((10 : ℕ) : ℚ) / 255))
              - Min.min (((200 : ℕ) : ℚ) / 255)
                  (Min.min (((200 : ℕ) : ℚ) / 255) (((10 : ℕ) : ℚ) / 255)))
      ∧ rgbToHslOrder [Channel.blue, Channel.green, Channel.red]
            ((200 : ℕ) : ℚ) ((200 : ℕ) : ℚ) ((10 : ℕ) : ℚ)
          = rgbToHsl ((200 : ℕ) : ℚ) ((200 : ℕ) : ℚ) ((10 : ℕ) : ℚ) :=
  ⟨⟨by decide, by decide, by decide, by decide⟩,
    (rgbToHsl_switch_order_irrelevant [Channel.blue, Channel.green, Channel.red] (by decide)
      200 200 10 (by decide) (by decide) (by decide)).1 Channel.red Channel.green (by decide)
      (by norm_num [Channel.value]) (by norm_num [Channel.value])
      (by intro c3 h1 h2; cases c3 <;> first | contradiction | norm_num [Channel.value]),
    (rgbToHsl_switch_order_irrelevant [Channel.blue, Channel.green, Channel.red] (by decide)
      200 200 10 (by decide) (by decide) (by decide)).2⟩

end ColorPicker
